import Mathlib

/-!
# vault-kv-extract: the extraction pipeline of `main.go`

A shallow embedding of `normalizeBackendName`, `reconstructMasterKey` and
`extract` from `src/main.go`, and the properties of them that the
specification states.

Go strings are byte sequences, so a string is a list of bytes.  A Go `error`
is represented by the text its `Error()` method returns.  The calls that leave
the program (`physical.NewBackend`, `vault.NewAESGCMBarrier`,
`base64.StdEncoding.DecodeString`, `shamir.Combine`, `barrier.Unseal`,
`barrier.Get`) are parameters of the model, collected in `Env`; the barrier
carries a state that `Unseal` and `Get` may change.  Every function returns,
next to its Go result, the list of outside calls it made, in order.
-/

set_option autoImplicit false

namespace VaultKvExtract

/-! ## Data model -/

/-- A Go `string`: an immutable sequence of bytes. -/
abbrev GoString := List UInt8

/-- A Go `[]byte`. -/
abbrev Bytes := List UInt8

/-- A non-nil Go `error`, represented by its `Error()` text. -/
abbrev GoError := GoString

/-- The bytes of a string literal (its UTF-8 encoding, as in Go source). -/
def str (s : String) : GoString := s.toUTF8.data.toList

/-- The struct `physical.Entry` as far as `extract` reads it. -/
structure Entry where
  Key : GoString
  Value : Bytes
deriving DecidableEq, Repr

/-- The command-line flags that `extract` and `reconstructMasterKey` read. -/
structure Flags where
  fOriginVaultKeysPaths : GoString
  fOriginVaultBackendName : GoString
  fOriginVaultMasterKeyShares : GoString
deriving DecidableEq, Repr

/-- The Go type `map[string][]byte`: at most one binding per key. -/
abbrev GoMap := List (GoString × Bytes)

/-- The Go expression `m[k]` with the comma-ok result. -/
def GoMap.get? (m : GoMap) (k : GoString) : Option Bytes :=
  match m with
  | [] => none
  | (k', v) :: rest => if k' = k then some v else GoMap.get? rest k

/-- The Go statement `m[k] = v`: a previous binding of `k` is replaced. -/
def GoMap.set (m : GoMap) (k : GoString) (v : Bytes) : GoMap :=
  (k, v) :: m.filter (fun e => decide (e.1 ≠ k))

/-! ## The library functions the program calls -/

namespace strings

/-- Go `strings.HasPrefix`. -/
def HasPrefix (s pre : GoString) : Bool := pre.isPrefixOf s

/-- Go `strings.HasSuffix`. -/
def HasSuffix (s suffix : GoString) : Bool := suffix.isSuffixOf s

/-- Go `strings.TrimPrefix`: `s` without the leading `pre`, or `s` itself when
`s` does not start with `pre`. -/
def TrimPrefix (s pre : GoString) : GoString :=
  if HasPrefix s pre then s.drop pre.length else s

/-- The loop of `strings.Split` for a one-byte separator; `cur` holds the bytes
of the piece being read, last byte first. -/
def splitLoop (sep : UInt8) (cur : GoString) : GoString → List GoString
  | [] => [cur.reverse]
  | c :: rest =>
    if c = sep then cur.reverse :: splitLoop sep [] rest
    else splitLoop sep (c :: cur) rest

/-- Go `strings.Split(s, sep)` for a separator of one byte, the only kind the
program uses: the pieces of `s` between the occurrences of `sep`, one more
piece than there are occurrences. -/
def Split (s : GoString) (sep : UInt8) : List GoString := splitLoop sep [] s

end strings

/-- The byte of the separator in `strings.Split(x, " ")`. -/
def space : UInt8 := 32

namespace fmt

/-- Go `fmt.Sprintf` for the formats the program uses: every `%v` receives the
next argument, a string, printed as it is; without arguments left the format
is copied. -/
def Sprintf : GoString → List GoString → GoString
  | [], _ => []
  | s, [] => s
  | [c], _ :: _ => [c]
  | c :: d :: rest, a :: args =>
    if c = 37 ∧ d = 118 then a ++ Sprintf rest args
    else c :: Sprintf (d :: rest) (a :: args)

end fmt

namespace errors

/-- The function `errors.New` of `github.com/pkg/errors`. -/
def New (message : GoString) : GoError := message

/-- The function `errors.Wrap` on a non-nil error: the text is the message, a
colon and the text of the cause. -/
def Wrap (err : GoError) (message : GoString) : GoError :=
  message ++ str ": " ++ err

/-- The function `errors.Wrapf` on a non-nil error. -/
def Wrapf (err : GoError) (format : GoString) (args : List GoString) : GoError :=
  fmt.Sprintf format args ++ str ": " ++ err

end errors

/-! ## The outside world -/

/-- What the calls that leave the program answer.  `β` is the physical backend
and `σ` the state of the barrier built over it. -/
structure Env (β σ : Type) where
  /-- The call `physical.NewBackend("etcd", nil, ...)`. -/
  NewBackend : Except GoError β
  /-- The call `vault.NewAESGCMBarrier(b)`. -/
  NewAESGCMBarrier : β → Except GoError σ
  /-- The call `base64.StdEncoding.DecodeString(s)`. -/
  DecodeString : GoString → Except GoError Bytes
  /-- The call `shamir.Combine(shares)`. -/
  Combine : List Bytes → Except GoError Bytes
  /-- The call `barrier.Unseal(k)`: the error, if any, and the barrier after. -/
  Unseal : σ → Bytes → Option GoError × σ
  /-- The call `barrier.Get(key)`: error, or entry or nil; and the barrier after. -/
  Get : σ → GoString → Except GoError (Option Entry) × σ

/-- An outside call the program made, with what it answered. -/
inductive Call where
  | NewBackend (err : Option GoError)
  | NewAESGCMBarrier (err : Option GoError)
  | Combine (shares : List Bytes) (res : Except GoError Bytes)
  | Unseal (k : Bytes) (err : Option GoError)
  | Get (key : GoString) (res : Except GoError (Option Entry))

/-- Whether a call is a `barrier.Get`. -/
def Call.isGet : Call → Bool
  | .Get _ _ => true
  | _ => false

/-- Whether a call is a `barrier.Unseal`. -/
def Call.isUnseal : Call → Bool
  | .Unseal _ _ => true
  | _ => false

/-- Whether a call is a `barrier.Unseal` that returned no error. -/
def Call.isUnsealOk : Call → Bool
  | .Unseal _ none => true
  | _ => false

/-- Whether a call is a `shamir.Combine`. -/
def Call.isCombine : Call → Bool
  | .Combine _ _ => true
  | _ => false

/-- Whether an answer of `barrier.Get` is an entry without an error. -/
def present : Except GoError (Option Entry) → Bool
  | .ok (some _) => true
  | _ => false

/-- The `barrier.Get` calls of a trace, in order: key asked and answer. -/
def gets : List Call → List (GoString × Except GoError (Option Entry))
  | [] => []
  | .Get key res :: rest => (key, res) :: gets rest
  | _ :: rest => gets rest

/-- The bytes the latest `barrier.Get` for `key` in the trace returned, when
one returned an entry. -/
def returnedFor (key : GoString) : List Call → Option Bytes
  | [] => none
  | .Get key' (.ok (some ent)) :: rest =>
    match returnedFor key rest with
    | some v => some v
    | none => if key' = key then some ent.Value else none
  | _ :: rest => returnedFor key rest

/-! ## The program -/

/-- The function `normalizeBackendName` of `main.go`. -/
def normalizeBackendName (backendName : GoString) : GoString :=
  let s := strings.TrimPrefix backendName (str "/")
  if !strings.HasSuffix backendName (str "/") then s ++ str "/" else s

/-- The separator byte, `/`. -/
def slash : UInt8 := 47

/-- Whether a string ends with exactly one separator and does not begin with
one: the format `normalizeBackendName` aims at, as in `logical/`. -/
def wellFormed (s : GoString) : Bool :=
  strings.HasSuffix s (str "/") && !strings.HasSuffix s (str "//") &&
    !strings.HasPrefix s (str "/")

section
variable {β σ : Type}

/-- The loop of `reconstructMasterKey` over the raw shares; `shares` holds the
shares decoded so far. -/
def decodeShares (env : Env β σ) (shares : List Bytes) :
    List GoString → Except GoError (List Bytes)
  | [] => .ok shares
  | s :: rest =>
    match env.DecodeString s with
    | .error err => .error (errors.Wrapf err (str "failed to decode share: %v") [s])
    | .ok share => decodeShares env (shares ++ [share]) rest

/-- The function `reconstructMasterKey` of `main.go`, with the calls made. -/
def reconstructMasterKey (env : Env β σ) (flags : Flags) :
    Except GoError Bytes × List Call :=
  let rawShares := strings.Split flags.fOriginVaultMasterKeyShares space
  match decodeShares env [] rawShares with
  | .error err => (.error err, [])
  | .ok shares => (env.Combine shares, [Call.Combine shares (env.Combine shares)])

/-- The loop `for _, p := range paths` of `extract`; `st` is the barrier and
`secrets` the map filled so far. -/
def extractLoop (env : Env β σ) (flags : Flags) (st : σ) (secrets : GoMap) :
    List GoString → Except GoError GoMap × List Call
  | [] => (.ok secrets, [])
  | p :: rest =>
    let backendName := normalizeBackendName flags.fOriginVaultBackendName
    let path := strings.TrimPrefix p (str "/")
    match env.Get st (backendName ++ path) with
    | (.error err, _) =>
      (.error (errors.Wrapf err (str "failed to get value for key at: %v") [p]),
        [Call.Get (backendName ++ path) (.error err)])
    | (.ok none, _) =>
      (.error (errors.New (str "no entry found for key")),
        [Call.Get (backendName ++ path) (.ok none)])
    | (.ok (some ent), st') =>
      let r := extractLoop env flags st'
        (secrets.set (strings.TrimPrefix ent.Key backendName) ent.Value) rest
      (r.1, Call.Get (backendName ++ path) (.ok (some ent)) :: r.2)

/-- Lines 89 to 107 of `extract`, from the value of `paths` on: the check of
the number of paths, and the loop. -/
def extractPaths (env : Env β σ) (flags : Flags) (st : σ) (paths : List GoString) :
    Except GoError GoMap × List Call :=
  let secrets : GoMap := []
  if paths.length = 0 then
    (.error (errors.New (str "no paths to Vault keys specified")), [])
  else extractLoop env flags st secrets paths

/-- The function `extract` of `main.go`: the map of secrets or the error, and
the outside calls made, in order. -/
def extract (env : Env β σ) (flags : Flags) : Except GoError GoMap × List Call :=
  match env.NewBackend with
  | .error err =>
    (.error (errors.Wrapf err (str "failed to initialize new etcd backend") []),
      [Call.NewBackend (some err)])
  | .ok b =>
    match env.NewAESGCMBarrier b with
    | .error err =>
      (.error (errors.Wrap err (str "failed to instantiate new barrier")),
        [Call.NewBackend none, Call.NewAESGCMBarrier (some err)])
    | .ok barrier =>
      let km := reconstructMasterKey env flags
      match km.1 with
      | .error err =>
        (.error (errors.Wrap err (str "failed to reconstruct master key")),
          [Call.NewBackend none, Call.NewAESGCMBarrier none] ++ km.2)
      | .ok k =>
        match env.Unseal barrier k with
        | (some err, _) =>
          (.error (errors.Wrap err (str "failed to unseal etcd backend")),
            [Call.NewBackend none, Call.NewAESGCMBarrier none] ++ km.2
              ++ [Call.Unseal k (some err)])
        | (none, unsealed) =>
          let paths := strings.Split flags.fOriginVaultKeysPaths space
          let r := extractPaths env flags unsealed paths
          (r.1, [Call.NewBackend none, Call.NewAESGCMBarrier none] ++ km.2
            ++ [Call.Unseal k none] ++ r.2)

end

/-! ## An example world

A barrier over a list of entries, sealed until `Unseal` receives the expected
key; shares are spelt with the letters `A` to `Z` and decode to themselves,
and `Combine` concatenates them. -/

/-- The example barrier: whether it is unsealed, and what it stores. -/
structure DemoBarrier where
  unsealed : Bool
  store : List Entry
deriving DecidableEq, Repr

/-- The first entry of a store with the given key. -/
def lookupEntry (key : GoString) : List Entry → Option Entry
  | [] => none
  | e :: rest => if e.Key = key then some e else lookupEntry key rest

/-- The example world over the given store, with master key `master`; an entry
whose value is empty fails to decrypt. -/
def demoEnv (store : List Entry) (master : Bytes) : Env (List Entry) DemoBarrier where
  NewBackend := .ok store
  NewAESGCMBarrier := fun b => .ok ⟨false, b⟩
  DecodeString := fun s =>
    if s.all (fun c => decide (65 ≤ c.toNat ∧ c.toNat ≤ 90)) then .ok s
    else .error (str "illegal base64 data")
  Combine := fun shares =>
    if shares.length < 2 then .error (str "less than two parts cannot be used to reconstruct the secret")
    else .ok shares.flatten
  Unseal := fun st k =>
    if k = master then (none, ⟨true, st.store⟩)
    else (some (str "cipher: message authentication failed"), st)
  Get := fun st key =>
    if st.unsealed then
      match lookupEntry key st.store with
      | none => (.ok none, st)
      | some e =>
        if e.Value = [] then (.error (str "cipher: message authentication failed"), st)
        else (.ok (some e), st)
    else (.error (str "Vault is sealed"), st)

/-- The store of the examples. -/
def demoStore : List Entry :=
  [⟨str "logical/app/db", str "db-secret"⟩, ⟨str "logical/app/web", str "web-secret"⟩,
   ⟨str "logical/app/bad", []⟩]

/-- The example world of the scenarios: master key `KAKB`. -/
def demo : Env (List Entry) DemoBarrier := demoEnv demoStore (str "KAKB")

/-- The flags of the examples: backend name `logical`, shares `KA KB`. -/
def demoFlags (paths : String) : Flags :=
  ⟨str paths, str "logical", str "KA KB"⟩

/-! ## Strings -/

open strings

theorem str_slash : str "/" = [slash] := by decide

theorem str_slash2 : str "//" = [slash, slash] := by decide

/-- Every string is empty, or is one, two or three bytes, or has two first
bytes and two last bytes. -/
theorem shape (s : GoString) :
    s = [] ∨ (∃ c, s = [c]) ∨ (∃ c d, s = [c, d]) ∨ (∃ c e d, s = [c, e, d]) ∨
      (∃ c f w e d, s = c :: f :: (w ++ [e, d])) := by
  rcases s with _ | ⟨c, t⟩
  · exact Or.inl rfl
  rcases List.eq_nil_or_concat t with rfl | ⟨u, d, rfl⟩
  · exact Or.inr (Or.inl ⟨c, rfl⟩)
  rcases List.eq_nil_or_concat u with rfl | ⟨w, e, rfl⟩
  · exact Or.inr (Or.inr (Or.inl ⟨c, d, rfl⟩))
  rcases w with _ | ⟨f, w⟩
  · exact Or.inr (Or.inr (Or.inr (Or.inl ⟨c, e, d, rfl⟩)))
  · exact Or.inr (Or.inr (Or.inr (Or.inr ⟨c, f, w, e, d, by simp⟩)))

theorem byte_cases (x : UInt8) : x = slash ∨ (x ≠ slash ∧ slash ≠ x) := by
  by_cases h : x = slash
  · exact Or.inl h
  · exact Or.inr ⟨h, Ne.symm h⟩

theorem normalize_eq (b : GoString) :
    normalizeBackendName b =
      if HasSuffix b [slash] then TrimPrefix b [slash] else TrimPrefix b [slash] ++ [slash] := by
  unfold normalizeBackendName
  rw [str_slash]
  cases HasSuffix b [slash] <;> rfl

theorem wellFormed_eq (s : GoString) :
    wellFormed s =
      (HasSuffix s [slash] && !HasSuffix s [slash, slash] && !HasPrefix s [slash]) := by
  unfold wellFormed
  rw [str_slash, str_slash2]

/-- The strings on which `normalizeBackendName` reaches its format. -/
theorem wellFormed_normalize_iff (s : GoString) :
    wellFormed (normalizeBackendName s) = true ↔
      (s ≠ [] ∧ s ≠ str "/" ∧ HasPrefix s (str "//") = false ∧
        HasSuffix s (str "//") = false) := by
  rw [str_slash, str_slash2, wellFormed_eq, normalize_eq]
  rcases shape s with rfl | ⟨c, rfl⟩ | ⟨c, d, rfl⟩ | ⟨c, e, d, rfl⟩ | ⟨c, f, w, e, d, rfl⟩
  · decide
  · rcases byte_cases c with rfl | ⟨hc, hc'⟩ <;>
      simp [TrimPrefix, HasPrefix, HasSuffix, List.isSuffixOf, List.isPrefixOf, *]
  · rcases byte_cases c with rfl | ⟨hc, hc'⟩ <;> rcases byte_cases d with rfl | ⟨hd, hd'⟩ <;>
      simp [TrimPrefix, HasPrefix, HasSuffix, List.isSuffixOf, List.isPrefixOf, *]
  · rcases byte_cases c with rfl | ⟨hc, hc'⟩ <;> rcases byte_cases d with rfl | ⟨hd, hd'⟩ <;>
      rcases byte_cases e with rfl | ⟨he, he'⟩ <;>
      simp [TrimPrefix, HasPrefix, HasSuffix, List.isSuffixOf, List.isPrefixOf, *]
  · rcases byte_cases c with rfl | ⟨hc, hc'⟩ <;> rcases byte_cases d with rfl | ⟨hd, hd'⟩ <;>
      rcases byte_cases e with rfl | ⟨he, he'⟩ <;> rcases byte_cases f with rfl | ⟨hf, hf'⟩ <;>
      simp [TrimPrefix, HasPrefix, HasSuffix, List.isSuffixOf, List.isPrefixOf, *]

/-- The strings on which normalizing twice is normalizing once. -/
theorem normalize_normalize_iff (p : GoString) :
    normalizeBackendName (normalizeBackendName p) = normalizeBackendName p ↔
      (p ≠ [] ∧ p ≠ str "/" ∧ HasPrefix p (str "//") = false) := by
  rw [str_slash, str_slash2, normalize_eq (normalizeBackendName p), normalize_eq]
  rcases shape p with rfl | ⟨c, rfl⟩ | ⟨c, d, rfl⟩ | ⟨c, e, d, rfl⟩ | ⟨c, f, w, e, d, rfl⟩
  · decide
  · rcases byte_cases c with rfl | ⟨hc, hc'⟩ <;>
      simp [TrimPrefix, HasPrefix, HasSuffix, List.isSuffixOf, List.isPrefixOf, *]
  · rcases byte_cases c with rfl | ⟨hc, hc'⟩ <;> rcases byte_cases d with rfl | ⟨hd, hd'⟩ <;>
      simp [TrimPrefix, HasPrefix, HasSuffix, List.isSuffixOf, List.isPrefixOf, *]
  · rcases byte_cases c with rfl | ⟨hc, hc'⟩ <;> rcases byte_cases d with rfl | ⟨hd, hd'⟩ <;>
      rcases byte_cases e with rfl | ⟨he, he'⟩ <;>
      simp [TrimPrefix, HasPrefix, HasSuffix, List.isSuffixOf, List.isPrefixOf, *]
  · rcases byte_cases c with rfl | ⟨hc, hc'⟩ <;> rcases byte_cases d with rfl | ⟨hd, hd'⟩ <;>
      rcases byte_cases e with rfl | ⟨he, he'⟩ <;> rcases byte_cases f with rfl | ⟨hf, hf'⟩ <;>
      simp [TrimPrefix, HasPrefix, HasSuffix, List.isSuffixOf, List.isPrefixOf, *]

/-! ## Normalization of the backend name -/

/-- C1, as the specification states it, fails: the backend names `//a`, `a//`,
the empty name and `/` are normalized to `/a/`, `a//`, `/` and the empty
string, none of which ends with exactly one separator and begins with none. -/
theorem normalizeBackendName_not_always_wellFormed :
    (normalizeBackendName (str "//a") = str "/a/" ∧ wellFormed (str "/a/") = false) ∧
    (normalizeBackendName (str "a//") = str "a//" ∧ wellFormed (str "a//") = false) ∧
    (normalizeBackendName (str "") = str "/" ∧ wellFormed (str "/") = false) ∧
    (normalizeBackendName (str "/") = str "" ∧ wellFormed (str "") = false) ∧
    ¬ ∀ b : GoString, wellFormed (normalizeBackendName b) = true := by
  refine ⟨by decide, by decide, by decide, by decide, fun h => ?_⟩
  exact absurd (h (str "//a")) (by decide)

/-- C1, amended: for every backend name that is not empty, is not `/`, does not
begin with `//` and does not end with `//`, `normalizeBackendName` returns a
string that ends with exactly one separator and does not begin with one. -/
theorem normalizeBackendName_wellFormed (b : GoString) (hne : b ≠ [])
    (hsep : b ≠ str "/") (hpre : HasPrefix b (str "//") = false)
    (hsuf : HasSuffix b (str "//") = false) :
    HasSuffix (normalizeBackendName b) (str "/") = true ∧
    HasSuffix (normalizeBackendName b) (str "//") = false ∧
    HasPrefix (normalizeBackendName b) (str "/") = false := by
  have h := (wellFormed_normalize_iff b).2 ⟨hne, hsep, hpre, hsuf⟩
  simpa [wellFormed, and_assoc] using h

/-- C1, amended, at the backend name of the example in `main.go`. -/
theorem normalizeBackendName_wellFormed_witness :
    normalizeBackendName (str "/vault/logical/U") = str "vault/logical/U/" ∧
    HasSuffix (normalizeBackendName (str "/vault/logical/U")) (str "/") = true ∧
    HasSuffix (normalizeBackendName (str "/vault/logical/U")) (str "//") = false ∧
    HasPrefix (normalizeBackendName (str "/vault/logical/U")) (str "/") = false :=
  ⟨by decide, normalizeBackendName_wellFormed (str "/vault/logical/U") (by decide) (by decide)
    (by decide) (by decide)⟩

/-- C2, as the specification states it, fails: normalizing the empty name gives
`/` and normalizing `/` gives the empty string; normalizing `//a` gives `/a/`
and normalizing `/a/` gives `a/`. -/
theorem normalizeBackendName_not_idempotent :
    normalizeBackendName (normalizeBackendName (str "")) ≠ normalizeBackendName (str "") ∧
    normalizeBackendName (normalizeBackendName (str "//a")) ≠
      normalizeBackendName (str "//a") ∧
    normalizeBackendName (str "//a") = str "/a/" ∧
    normalizeBackendName (str "/a/") = str "a/" := by
  decide

/-- C2, amended: for every string that is not empty, is not `/` and does not
begin with `//`, normalizing twice gives what normalizing once gives. -/
theorem normalizeBackendName_idempotent (p : GoString) (hne : p ≠ [])
    (hsep : p ≠ str "/") (hpre : HasPrefix p (str "//") = false) :
    normalizeBackendName (normalizeBackendName p) = normalizeBackendName p :=
  (normalize_normalize_iff p).2 ⟨hne, hsep, hpre⟩

/-- C2, amended, at the backend name `/logical`. -/
theorem normalizeBackendName_idempotent_witness :
    normalizeBackendName (str "/logical") = str "logical/" ∧
    normalizeBackendName (normalizeBackendName (str "/logical")) =
      normalizeBackendName (str "/logical") :=
  ⟨by decide, normalizeBackendName_idempotent (str "/logical") (by decide) (by decide)
    (by decide)⟩

/-- C10: `normalizeBackendName s` ends with exactly one separator and does not
begin with one exactly when `s` is not empty, is not `/`, does not begin with
`//` and does not end with `//`; the empty name gives `/` and the name `/`
gives the empty string, the name `/` ending with a separator while what is
left of it after the leading separator is trimmed does not. -/
theorem normalizeBackendName_wellFormed_domain :
    (∀ s : GoString,
      (HasSuffix (normalizeBackendName s) (str "/") = true ∧
        HasSuffix (normalizeBackendName s) (str "//") = false ∧
        HasPrefix (normalizeBackendName s) (str "/") = false) ↔
      (s ≠ [] ∧ s ≠ str "/" ∧ HasPrefix s (str "//") = false ∧
        HasSuffix s (str "//") = false)) ∧
    normalizeBackendName (str "") = str "/" ∧
    normalizeBackendName (str "/") = str "" ∧
    HasSuffix (str "/") (str "/") = true ∧
    HasSuffix (TrimPrefix (str "/") (str "/")) (str "/") = false := by
  refine ⟨fun s => ?_, by decide, by decide, by decide, by decide⟩
  rw [← wellFormed_normalize_iff s]
  simp [wellFormed, and_assoc]

/-! ## Library facts -/

theorem sprintf_share (s : GoString) :
    fmt.Sprintf (str "failed to decode share: %v") [s] = str "failed to decode share: " ++ s := by
  have h : fmt.Sprintf (str "failed to decode share: %v") [s] =
      str "failed to decode share: " ++ (s ++ []) := rfl
  rw [h, List.append_nil]

theorem sprintf_get (p : GoString) :
    fmt.Sprintf (str "failed to get value for key at: %v") [p] =
      str "failed to get value for key at: " ++ p := by
  have h : fmt.Sprintf (str "failed to get value for key at: %v") [p] =
      str "failed to get value for key at: " ++ (p ++ []) := rfl
  rw [h, List.append_nil]

theorem splitLoop_ne_nil (sep : UInt8) (cur s : GoString) : splitLoop sep cur s ≠ [] := by
  induction s generalizing cur with
  | nil => simp [splitLoop]
  | cons c rest ih =>
    unfold splitLoop
    split
    · simp
    · exact ih _

theorem split_ne_nil (s : GoString) (sep : UInt8) : Split s sep ≠ [] :=
  splitLoop_ne_nil sep [] s

theorem trimPrefix_append (pre r : GoString) : TrimPrefix (pre ++ r) pre = r := by
  simp [TrimPrefix, HasPrefix]

theorem get?_filter_ne (m : GoMap) (k r : GoString) (h : k ≠ r) :
    GoMap.get? (m.filter (fun e => decide (e.1 ≠ k))) r = GoMap.get? m r := by
  induction m with
  | nil => rfl
  | cons e rest ih =>
    obtain ⟨k', v⟩ := e
    simp only [decide_not] at ih ⊢
    by_cases hk : k' = k
    · subst hk
      simp [List.filter, GoMap.get?, h, ih]
    · simp [List.filter, GoMap.get?, hk, ih]

theorem get?_set (m : GoMap) (k r : GoString) (v : Bytes) :
    (GoMap.set m k v).get? r = if k = r then some v else m.get? r := by
  unfold GoMap.set
  by_cases h : k = r
  · simp [GoMap.get?, h]
  · have h' := get?_filter_ne m k r h
    simp only [decide_not] at h'
    simp [GoMap.get?, h, h']

theorem gets_append (a b : List Call) : gets (a ++ b) = gets a ++ gets b := by
  induction a with
  | nil => rfl
  | cons c rest ih => cases c <;> simp [gets, ih]

/-! ## Reconstruction of the master key -/

section
variable {β σ : Type}

theorem decodeShares_error (env : Env β σ) (pre : List GoString) (s : GoString)
    (post : List GoString) (err : GoError) (acc : List Bytes)
    (hpre : ∀ t ∈ pre, ∃ bs, env.DecodeString t = .ok bs)
    (hs : env.DecodeString s = .error err) :
    decodeShares env acc (pre ++ s :: post) =
      .error (str "failed to decode share: " ++ s ++ str ": " ++ err) := by
  induction pre generalizing acc with
  | nil =>
    simp only [List.nil_append, decodeShares, hs, errors.Wrapf, sprintf_share]
  | cons t rest ih =>
    obtain ⟨bs, hbs⟩ := hpre t (List.mem_cons_self _ _)
    simp only [List.cons_append, decodeShares, hbs]
    exact ih _ (fun u hu => hpre u (List.mem_cons_of_mem _ hu))

theorem decodeShares_ok (env : Env β σ) (toks : List GoString) (shares acc : List Bytes)
    (h : toks.map env.DecodeString = shares.map Except.ok) :
    decodeShares env acc toks = .ok (acc ++ shares) := by
  induction toks generalizing acc shares with
  | nil =>
    cases shares with
    | nil => simp [decodeShares]
    | cons a l => simp at h
  | cons t rest ih =>
    cases shares with
    | nil => simp at h
    | cons a l =>
      simp only [List.map_cons, List.cons.injEq] at h
      simp only [decodeShares, h.1]
      rw [ih l (acc ++ [a]) h.2]
      simp

theorem all_decoded (env : Env β σ) (toks : List GoString)
    (h : ∀ t ∈ toks, ∃ bs, env.DecodeString t = .ok bs) :
    ∃ shares : List Bytes, toks.map env.DecodeString = shares.map Except.ok := by
  induction toks with
  | nil => exact ⟨[], rfl⟩
  | cons t rest ih =>
    obtain ⟨bs, hbs⟩ := h t (List.mem_cons_self _ _)
    obtain ⟨l, hl⟩ := ih (fun u hu => h u (List.mem_cons_of_mem _ hu))
    exact ⟨bs :: l, by simp [hbs, hl]⟩

theorem first_undecodable (env : Env β σ) (toks : List GoString)
    (h : ∃ t ∈ toks, ∃ err, env.DecodeString t = .error err) :
    ∃ pre s post err, toks = pre ++ s :: post ∧
      (∀ t ∈ pre, ∃ bs, env.DecodeString t = .ok bs) ∧ env.DecodeString s = .error err := by
  induction toks with
  | nil => simp at h
  | cons t rest ih =>
    rcases hd : env.DecodeString t with err | bs
    · exact ⟨[], t, rest, err, rfl, by simp, hd⟩
    · obtain ⟨u, hu, e, he⟩ := h
      rcases List.mem_cons.1 hu with rfl | hu'
      · rw [hd] at he; cases he
      · obtain ⟨pre, s, post, err, hsplit, hpre, hs⟩ := ih ⟨u, hu', e, he⟩
        refine ⟨t :: pre, s, post, err, by simp [hsplit], ?_, hs⟩
        intro x hx
        rcases List.mem_cons.1 hx with rfl | hx'
        · exact ⟨bs, hd⟩
        · exact hpre x hx'

/-- C8: when some space-delimited token of the shares does not decode,
`reconstructMasterKey` fails with the error `failed to decode share: s: err`
for the first such token `s`, a text that contains `s`, and `shamir.Combine`
is not called; when every token decodes, `shamir.Combine` is called once, with
the decoded tokens, one per token and in the order of the input, and its
answer is returned. -/
theorem reconstructMasterKey_shares (env : Env β σ) (flags : Flags) :
    ((∃ t ∈ Split flags.fOriginVaultMasterKeyShares space,
        ∃ err, env.DecodeString t = .error err) →
      ∃ pre s post err,
        Split flags.fOriginVaultMasterKeyShares space = pre ++ s :: post ∧
        (∀ t ∈ pre, ∃ bs, env.DecodeString t = .ok bs) ∧
        env.DecodeString s = .error err ∧
        reconstructMasterKey env flags =
          (.error (str "failed to decode share: " ++ s ++ str ": " ++ err), []) ∧
        s <:+: str "failed to decode share: " ++ s ++ str ": " ++ err) ∧
    ((∀ t ∈ Split flags.fOriginVaultMasterKeyShares space,
        ∃ bs, env.DecodeString t = .ok bs) →
      ∃ shares : List Bytes,
        (Split flags.fOriginVaultMasterKeyShares space).map env.DecodeString =
          shares.map Except.ok ∧
        reconstructMasterKey env flags =
          (env.Combine shares, [Call.Combine shares (env.Combine shares)])) := by
  constructor
  · intro h
    obtain ⟨pre, s, post, err, hsplit, hpre, hs⟩ := first_undecodable env _ h
    refine ⟨pre, s, post, err, hsplit, hpre, hs, ?_, ?_⟩
    · simp only [reconstructMasterKey, hsplit, decodeShares_error env pre s post err [] hpre hs]
    · exact ⟨str "failed to decode share: ", str ": " ++ err, by simp⟩
  · intro h
    obtain ⟨shares, hshares⟩ := all_decoded env _ h
    refine ⟨shares, hshares, ?_⟩
    simp only [reconstructMasterKey, decodeShares_ok env _ shares [] hshares, List.nil_append]

/-- C8 on the example world: the token `K!` of the shares `KA K! KB` does not
decode, and the shares `KA KB` are combined in this order. -/
theorem reconstructMasterKey_shares_witness :
    reconstructMasterKey demo ⟨[], [], str "KA K! KB"⟩ =
      (.error (str "failed to decode share: K!: illegal base64 data"), []) ∧
    reconstructMasterKey demo ⟨[], [], str "KA KB"⟩ =
      (.ok (str "KAKB"), [Call.Combine [str "KA", str "KB"] (.ok (str "KAKB"))]) ∧
    ∃ pre s post err,
      Split (str "KA K! KB") space = pre ++ s :: post ∧
      (∀ t ∈ pre, ∃ bs, demo.DecodeString t = .ok bs) ∧
      demo.DecodeString s = .error err ∧
      reconstructMasterKey demo ⟨[], [], str "KA K! KB"⟩ =
        (.error (str "failed to decode share: " ++ s ++ str ": " ++ err), []) ∧
      s <:+: str "failed to decode share: " ++ s ++ str ": " ++ err :=
  ⟨rfl, rfl, (reconstructMasterKey_shares demo ⟨[], [], str "KA K! KB"⟩).1
    ⟨str "K!", by decide, str "illegal base64 data", rfl⟩⟩

end

/-! ## The loop of `extract` -/

section
variable {β σ : Type}

theorem extractLoop_nil (env : Env β σ) (flags : Flags) (st : σ) (acc : GoMap) :
    extractLoop env flags st acc [] = (.ok acc, []) := rfl

theorem extractLoop_error (env : Env β σ) (flags : Flags) (st st' : σ) (acc : GoMap)
    (p : GoString) (rest : List GoString) (err : GoError)
    (h : env.Get st (normalizeBackendName flags.fOriginVaultBackendName ++
      TrimPrefix p (str "/")) = (.error err, st')) :
    extractLoop env flags st acc (p :: rest) =
      (.error (str "failed to get value for key at: " ++ p ++ str ": " ++ err),
        [Call.Get (normalizeBackendName flags.fOriginVaultBackendName ++
          TrimPrefix p (str "/")) (.error err)]) := by
  simp only [extractLoop, h, errors.Wrapf, sprintf_get]

theorem extractLoop_absent (env : Env β σ) (flags : Flags) (st st' : σ) (acc : GoMap)
    (p : GoString) (rest : List GoString)
    (h : env.Get st (normalizeBackendName flags.fOriginVaultBackendName ++
      TrimPrefix p (str "/")) = (.ok none, st')) :
    extractLoop env flags st acc (p :: rest) =
      (.error (str "no entry found for key"),
        [Call.Get (normalizeBackendName flags.fOriginVaultBackendName ++
          TrimPrefix p (str "/")) (.ok none)]) := by
  simp only [extractLoop, h, errors.New]

theorem extractLoop_present (env : Env β σ) (flags : Flags) (st st' : σ) (acc : GoMap)
    (p : GoString) (rest : List GoString) (ent : Entry)
    (h : env.Get st (normalizeBackendName flags.fOriginVaultBackendName ++
      TrimPrefix p (str "/")) = (.ok (some ent), st')) :
    extractLoop env flags st acc (p :: rest) =
      ((extractLoop env flags st' (acc.set (TrimPrefix ent.Key
          (normalizeBackendName flags.fOriginVaultBackendName)) ent.Value) rest).1,
        Call.Get (normalizeBackendName flags.fOriginVaultBackendName ++
          TrimPrefix p (str "/")) (.ok (some ent)) ::
        (extractLoop env flags st' (acc.set (TrimPrefix ent.Key
          (normalizeBackendName flags.fOriginVaultBackendName)) ent.Value) rest).2) := by
  simp only [extractLoop, h]

/-- The three ways an iteration of the loop goes. -/
theorem extractLoop_cons (env : Env β σ) (flags : Flags) (st : σ) (acc : GoMap)
    (p : GoString) (rest : List GoString) :
    (∃ err, extractLoop env flags st acc (p :: rest) =
      (.error (str "failed to get value for key at: " ++ p ++ str ": " ++ err),
        [Call.Get (normalizeBackendName flags.fOriginVaultBackendName ++
          TrimPrefix p (str "/")) (.error err)])) ∨
    (extractLoop env flags st acc (p :: rest) =
      (.error (str "no entry found for key"),
        [Call.Get (normalizeBackendName flags.fOriginVaultBackendName ++
          TrimPrefix p (str "/")) (.ok none)])) ∨
    (∃ ent st', env.Get st (normalizeBackendName flags.fOriginVaultBackendName ++
        TrimPrefix p (str "/")) = (.ok (some ent), st') ∧
      extractLoop env flags st acc (p :: rest) =
      ((extractLoop env flags st' (acc.set (TrimPrefix ent.Key
          (normalizeBackendName flags.fOriginVaultBackendName)) ent.Value) rest).1,
        Call.Get (normalizeBackendName flags.fOriginVaultBackendName ++
          TrimPrefix p (str "/")) (.ok (some ent)) ::
        (extractLoop env flags st' (acc.set (TrimPrefix ent.Key
          (normalizeBackendName flags.fOriginVaultBackendName)) ent.Value) rest).2)) := by
  have hg : env.Get st (normalizeBackendName flags.fOriginVaultBackendName ++
      TrimPrefix p (str "/")) =
      ((env.Get st (normalizeBackendName flags.fOriginVaultBackendName ++
        TrimPrefix p (str "/"))).1,
       (env.Get st (normalizeBackendName flags.fOriginVaultBackendName ++
        TrimPrefix p (str "/"))).2) := rfl
  rcases h1 : (env.Get st (normalizeBackendName flags.fOriginVaultBackendName ++
      TrimPrefix p (str "/"))).1 with err | _ | ent
  · rw [h1] at hg
    exact Or.inl ⟨err, extractLoop_error env flags st _ acc p rest err hg⟩
  · rw [h1] at hg
    exact Or.inr (Or.inl (extractLoop_absent env flags st _ acc p rest hg))
  · rw [h1] at hg
    exact Or.inr (Or.inr ⟨ent, _, hg, extractLoop_present env flags st _ acc p rest ent hg⟩)

theorem extractLoop_calls (env : Env β σ) (flags : Flags) (st : σ) (acc : GoMap)
    (paths : List GoString) :
    ∀ c ∈ (extractLoop env flags st acc paths).2, c.isGet = true := by
  induction paths generalizing st acc with
  | nil => simp [extractLoop_nil]
  | cons p rest ih =>
    rcases extractLoop_cons env flags st acc p rest with ⟨err, h⟩ | h | ⟨ent, st', -, h⟩
    · rw [h]; simp [Call.isGet]
    · rw [h]; simp [Call.isGet]
    · rw [h]
      intro c hc
      rcases List.mem_cons.1 hc with rfl | hc'
      · rfl
      · exact ih st' _ c hc'

theorem extractLoop_keys (env : Env β σ) (flags : Flags) (st : σ) (acc : GoMap)
    (paths : List GoString) :
    (gets (extractLoop env flags st acc paths).2).map Prod.fst <+:
      paths.map (fun p => normalizeBackendName flags.fOriginVaultBackendName ++
        TrimPrefix p (str "/")) := by
  induction paths generalizing st acc with
  | nil => simp [extractLoop_nil, gets]
  | cons p rest ih =>
    rcases extractLoop_cons env flags st acc p rest with ⟨err, h⟩ | h | ⟨ent, st', -, h⟩
    · rw [h]; simp only [gets, List.map_cons, List.map_nil]
      exact ⟨_, rfl⟩
    · rw [h]; simp only [gets, List.map_cons, List.map_nil]
      exact ⟨_, rfl⟩
    · rw [h]; simp only [gets, List.map_cons]
      exact (List.prefix_cons_inj _).2 (ih st' _)

theorem extractLoop_ok_iff (env : Env β σ) (flags : Flags) (st : σ) (acc : GoMap)
    (paths : List GoString) :
    (∃ m, (extractLoop env flags st acc paths).1 = .ok m) ↔
      ((gets (extractLoop env flags st acc paths).2).length = paths.length ∧
        ∀ g ∈ gets (extractLoop env flags st acc paths).2, present g.2 = true) := by
  induction paths generalizing st acc with
  | nil => simp [extractLoop_nil, gets]
  | cons p rest ih =>
    rcases extractLoop_cons env flags st acc p rest with ⟨err, h⟩ | h | ⟨ent, st', -, h⟩
    · rw [h]; simp [gets, present]
    · rw [h]; simp [gets, present]
    · rw [h]; simp only [gets, List.length_cons, List.mem_cons, forall_eq_or_imp, present,
        true_and, add_left_inj]
      exact ih st' _

theorem extractLoop_fail_fast (env : Env β σ) (flags : Flags) (st : σ) (acc : GoMap)
    (paths : List GoString) (pre : List (GoString × Except GoError (Option Entry)))
    (g : GoString × Except GoError (Option Entry))
    (post : List (GoString × Except GoError (Option Entry)))
    (hg : gets (extractLoop env flags st acc paths).2 = pre ++ g :: post)
    (hfail : present g.2 = false) :
    (∃ e, (extractLoop env flags st acc paths).1 = .error e) ∧ post = [] ∧
      ∀ g' ∈ pre, present g'.2 = true := by
  induction paths generalizing st acc pre with
  | nil => simp [extractLoop_nil, gets] at hg
  | cons p rest ih =>
    rcases extractLoop_cons env flags st acc p rest with ⟨err, h⟩ | h | ⟨ent, st', -, h⟩
    · rw [h] at hg ⊢
      simp only [gets] at hg
      rcases pre with _ | ⟨x, pre'⟩
      · simp at hg; exact ⟨⟨_, rfl⟩, hg.2, by simp⟩
      · simp at hg
    · rw [h] at hg ⊢
      simp only [gets] at hg
      rcases pre with _ | ⟨x, pre'⟩
      · simp at hg; exact ⟨⟨_, rfl⟩, hg.2, by simp⟩
      · simp at hg
    · rw [h] at hg ⊢
      simp only [gets] at hg
      rcases pre with _ | ⟨x, pre'⟩
      · simp only [List.nil_append, List.cons.injEq] at hg
        rw [← hg.1] at hfail
        simp [present] at hfail
      · simp only [List.cons_append, List.cons.injEq] at hg
        obtain ⟨he, hpost, hpre⟩ := ih st' _ pre' hg.2
        refine ⟨he, hpost, ?_⟩
        intro g' hg'
        rcases List.mem_cons.1 hg' with rfl | hg''
        · rw [← hg.1]; rfl
        · exact hpre g' hg''

theorem extractLoop_map (env : Env β σ) (flags : Flags) (st : σ) (acc : GoMap)
    (paths : List GoString) (m : GoMap)
    (hkey : ∀ st key ent st', env.Get st key = (.ok (some ent), st') → ent.Key = key)
    (h : (extractLoop env flags st acc paths).1 = .ok m) (r : GoString) :
    m.get? r =
      match returnedFor (normalizeBackendName flags.fOriginVaultBackendName ++ r)
        (extractLoop env flags st acc paths).2 with
      | some v => some v
      | none => acc.get? r := by
  induction paths generalizing st acc with
  | nil =>
    rw [extractLoop_nil] at h ⊢
    cases h
    rfl
  | cons p rest ih =>
    rcases extractLoop_cons env flags st acc p rest with ⟨err, hl⟩ | hl | ⟨ent, st', hget, hl⟩
    · rw [hl] at h; cases h
    · rw [hl] at h; cases h
    · rw [hl] at h ⊢
      have hk := hkey _ _ _ _ hget
      rw [hk, trimPrefix_append] at h ⊢
      rw [ih st' _ h]
      simp only [returnedFor]
      cases returnedFor (normalizeBackendName flags.fOriginVaultBackendName ++ r)
        (extractLoop env flags st' (acc.set (TrimPrefix p (str "/")) ent.Value) rest).2 with
      | some v => rfl
      | none =>
        simp only [get?_set, List.append_right_inj]
        by_cases hr : TrimPrefix p (str "/") = r
        · simp only [hr, if_true]
        · simp only [hr, if_false]

theorem extractLoop_domain (env : Env β σ) (flags : Flags) (st : σ) (acc : GoMap)
    (paths : List GoString) (m : GoMap)
    (hkey : ∀ st key ent st', env.Get st key = (.ok (some ent), st') → ent.Key = key)
    (h : (extractLoop env flags st acc paths).1 = .ok m) (r : GoString) :
    (∃ v, m.get? r = some v) ↔
      (r ∈ paths.map (fun p => TrimPrefix p (str "/")) ∨ ∃ v, acc.get? r = some v) := by
  induction paths generalizing st acc with
  | nil =>
    rw [extractLoop_nil] at h
    cases h
    simp
  | cons p rest ih =>
    rcases extractLoop_cons env flags st acc p rest with ⟨err, hl⟩ | hl | ⟨ent, st', hget, hl⟩
    · rw [hl] at h; cases h
    · rw [hl] at h; cases h
    · rw [hl] at h
      have hk := hkey _ _ _ _ hget
      rw [hk, trimPrefix_append] at h
      rw [ih st' _ h, get?_set, List.map_cons, List.mem_cons]
      by_cases hr : TrimPrefix p (str "/") = r
      · rw [if_pos hr]
        constructor
        · intro _; exact Or.inl (Or.inl hr.symm)
        · intro _; exact Or.inr ⟨_, rfl⟩
      · rw [if_neg hr]
        constructor
        · rintro (h1 | h1)
          · exact Or.inl (Or.inr h1)
          · exact Or.inr h1
        · rintro ((h1 | h1) | h1)
          · exact absurd h1.symm hr
          · exact Or.inl h1
          · exact Or.inr h1

/-! ## The function `extract` -/

theorem extractPaths_eq (env : Env β σ) (flags : Flags) (st : σ) (paths : List GoString)
    (h : paths ≠ []) : extractPaths env flags st paths = extractLoop env flags st [] paths := by
  cases paths with
  | nil => exact absurd rfl h
  | cons p rest => simp [extractPaths]

theorem reconstructMasterKey_calls (env : Env β σ) (flags : Flags) :
    ∀ c ∈ (reconstructMasterKey env flags).2, c.isCombine = true := by
  simp only [reconstructMasterKey]
  split
  · simp
  · simp [Call.isCombine]

/-- The run of `extract` once the barrier is unsealed. -/
theorem extract_unsealed (env : Env β σ) (flags : Flags) (b : β) (barrier unsealed : σ)
    (k : Bytes) (hb : env.NewBackend = .ok b) (hbar : env.NewAESGCMBarrier b = .ok barrier)
    (hk : (reconstructMasterKey env flags).1 = .ok k)
    (hu : env.Unseal barrier k = (none, unsealed)) :
    extract env flags =
      ((extractPaths env flags unsealed (Split flags.fOriginVaultKeysPaths space)).1,
        [Call.NewBackend none, Call.NewAESGCMBarrier none] ++ (reconstructMasterKey env flags).2
          ++ [Call.Unseal k none]
          ++ (extractPaths env flags unsealed (Split flags.fOriginVaultKeysPaths space)).2) := by
  simp only [extract, hb, hbar, hk, hu]

/-- The run of `extract` when `barrier.Unseal` answers with an error. -/
theorem extract_unseal_error (env : Env β σ) (flags : Flags) (b : β) (barrier st' : σ)
    (k : Bytes) (err : GoError) (hb : env.NewBackend = .ok b)
    (hbar : env.NewAESGCMBarrier b = .ok barrier)
    (hk : (reconstructMasterKey env flags).1 = .ok k)
    (hu : env.Unseal barrier k = (some err, st')) :
    extract env flags =
      (.error (str "failed to unseal etcd backend" ++ str ": " ++ err),
        [Call.NewBackend none, Call.NewAESGCMBarrier none] ++ (reconstructMasterKey env flags).2
          ++ [Call.Unseal k (some err)]) := by
  simp only [extract, hb, hbar, hk, hu, errors.Wrap]

/-- Either `extract` stops before the loop, with an error, no `barrier.Get` and
no `barrier.Unseal` that succeeded, or the barrier is unsealed and the loop
runs over the requested paths. -/
theorem extract_cases (env : Env β σ) (flags : Flags) :
    ((∃ e, (extract env flags).1 = .error e) ∧
      (∀ c ∈ (extract env flags).2, c.isGet = false) ∧
      (∀ c ∈ (extract env flags).2, c.isUnsealOk = false)) ∨
    (∃ unsealed k b barrier,
      env.NewBackend = .ok b ∧ env.NewAESGCMBarrier b = .ok barrier ∧
      (reconstructMasterKey env flags).1 = .ok k ∧
      env.Unseal barrier k = (none, unsealed) ∧
      extract env flags =
        ((extractLoop env flags unsealed [] (Split flags.fOriginVaultKeysPaths space)).1,
          [Call.NewBackend none, Call.NewAESGCMBarrier none]
            ++ (reconstructMasterKey env flags).2 ++ [Call.Unseal k none]
            ++ (extractLoop env flags unsealed []
                (Split flags.fOriginVaultKeysPaths space)).2)) := by
  have hc := reconstructMasterKey_calls env flags
  rcases hb : env.NewBackend with e | b
  · left
    simp [extract, hb, Call.isGet, Call.isUnsealOk]
  rcases hbar : env.NewAESGCMBarrier b with e | barrier
  · left
    simp [extract, hb, hbar, Call.isGet, Call.isUnsealOk]
  rcases hk : (reconstructMasterKey env flags).1 with e | k
  · left
    simp only [extract, hb, hbar, hk]
    refine ⟨⟨_, rfl⟩, ?_, ?_⟩ <;>
    · intro c hc'
      simp only [List.mem_append, List.mem_cons, List.mem_singleton, List.not_mem_nil,
        or_false] at hc'
      rcases hc' with (rfl | rfl) | hc'
      · rfl
      · rfl
      · have := hc c hc'
        cases c <;> first | rfl | exact absurd this (by simp [Call.isCombine])
  have hu : env.Unseal barrier k = ((env.Unseal barrier k).1, (env.Unseal barrier k).2) := rfl
  rcases h1 : (env.Unseal barrier k).1 with _ | err
  · right
    rw [h1] at hu
    refine ⟨(env.Unseal barrier k).2, k, b, barrier, rfl, hbar, rfl, hu, ?_⟩
    rw [extract_unsealed env flags b barrier _ k hb hbar hk hu,
      extractPaths_eq env flags _ _ (split_ne_nil _ _)]
  · left
    rw [h1] at hu
    rw [extract_unseal_error env flags b barrier _ k err hb hbar hk hu]
    refine ⟨⟨_, rfl⟩, ?_, ?_⟩ <;>
    · intro c hc'
      simp only [List.mem_append, List.mem_cons, List.mem_singleton, List.not_mem_nil,
        or_false] at hc'
      rcases hc' with ((rfl | rfl) | hc') | rfl
      · rfl
      · rfl
      · have := hc c hc'
        cases c <;> first | rfl | exact absurd this (by simp [Call.isCombine])
      · rfl

theorem gets_eq_nil (l : List Call) (h : ∀ c ∈ l, c.isGet = false) : gets l = [] := by
  induction l with
  | nil => rfl
  | cons c rest ih =>
    have hc := h c (List.mem_cons_self _ _)
    have hr := ih (fun x hx => h x (List.mem_cons_of_mem _ hx))
    cases c <;> first | exact hr | exact absurd hc (by simp [Call.isGet])

theorem returnedFor_append (key : GoString) (l t : List Call)
    (h : ∀ c ∈ l, c.isGet = false) : returnedFor key (l ++ t) = returnedFor key t := by
  induction l with
  | nil => rfl
  | cons c rest ih =>
    have hc := h c (List.mem_cons_self _ _)
    have hr := ih (fun x hx => h x (List.mem_cons_of_mem _ hx))
    cases c <;> first | exact hr | exact absurd hc (by simp [Call.isGet])

/-- The calls `extract` makes before the loop are no `barrier.Get`. -/
theorem setup_calls (env : Env β σ) (flags : Flags) (k : Bytes) :
    ∀ c ∈ [Call.NewBackend none, Call.NewAESGCMBarrier none]
      ++ (reconstructMasterKey env flags).2 ++ [Call.Unseal k none], c.isGet = false := by
  intro c hc
  simp only [List.mem_append, List.mem_cons, List.mem_singleton, List.not_mem_nil,
    or_false] at hc
  rcases hc with ((rfl | rfl) | hc) | rfl
  · rfl
  · rfl
  · have := reconstructMasterKey_calls env flags c hc
    cases c <;> first | rfl | exact absurd this (by simp [Call.isCombine])
  · rfl

/-- What `extract` returns and which `barrier.Get` calls it makes: none and an
error, or those of the loop over the requested paths on the unsealed barrier. -/
theorem extract_loop (env : Env β σ) (flags : Flags) :
    ((∃ e, (extract env flags).1 = .error e) ∧ gets (extract env flags).2 = []) ∨
    (∃ unsealed,
      (extract env flags).1 =
        (extractLoop env flags unsealed [] (Split flags.fOriginVaultKeysPaths space)).1 ∧
      gets (extract env flags).2 =
        gets (extractLoop env flags unsealed [] (Split flags.fOriginVaultKeysPaths space)).2 ∧
      ∀ key, returnedFor key (extract env flags).2 =
        returnedFor key
          (extractLoop env flags unsealed [] (Split flags.fOriginVaultKeysPaths space)).2) := by
  rcases extract_cases env flags with ⟨he, hg, -⟩ | ⟨unsealed, k, b, barrier, -, -, -, -, h⟩
  · exact Or.inl ⟨he, gets_eq_nil _ hg⟩
  · refine Or.inr ⟨unsealed, by rw [h], ?_, fun key => ?_⟩
    · rw [h]
      simp only [gets_append _ (extractLoop _ _ _ _ _).2, gets_eq_nil _ (setup_calls env flags k),
        List.nil_append]
    · rw [h]
      exact returnedFor_append key _ _ (setup_calls env flags k)

end

/-! ## The properties of `extract` -/

theorem hasSuffix_append (a u : GoString) (h : u ≠ []) :
    HasSuffix (a ++ u) [slash] = HasSuffix u [slash] := by
  rcases List.eq_nil_or_concat u with rfl | ⟨w, d, rfl⟩
  · exact absurd rfl h
  · simp [HasSuffix, List.isSuffixOf, List.isPrefixOf]

theorem trimPrefix_of_not (p : GoString) (h : HasPrefix p (str "/") = false) :
    TrimPrefix p (str "/") = p := by
  simp [TrimPrefix, h]

theorem lookupEntry_key (key : GoString) (store : List Entry) (e : Entry)
    (h : lookupEntry key store = some e) : e.Key = key := by
  induction store with
  | nil => cases h
  | cons x rest ih =>
    unfold lookupEntry at h
    split at h
    · cases h; assumption
    · exact ih h

/-- The example barrier answers with entries that carry the key asked for. -/
theorem demoEnv_get_key (store : List Entry) (master : Bytes) (st : DemoBarrier)
    (key : GoString) (ent : Entry) (st' : DemoBarrier)
    (h : (demoEnv store master).Get st key = (.ok (some ent), st')) : ent.Key = key := by
  simp only [demoEnv] at h
  split at h
  · split at h
    · cases h
    · split at h
      · cases h
      · cases h
        exact lookupEntry_key _ _ _ (by assumption)
  · cases h

section
variable {β σ : Type}

/-- C3: the keys `extract` passes to `barrier.Get` are, in order, those of the
requested paths, each `normalizeBackendName` of the backend name followed by
the path without its leading separator; so a path that does not begin with a
separator and the same path behind a separator read the same key.  Backend
name `logical` with the paths `app/db` and `/app/db` reads `logical/app/db`;
backend name `/vault/logical/U` with path `P` reads `vault/logical/U/P`. -/
theorem extract_get_key (env : Env β σ) (flags : Flags) :
    ((gets (extract env flags).2).map Prod.fst <+:
      (Split flags.fOriginVaultKeysPaths space).map
        (fun p => normalizeBackendName flags.fOriginVaultBackendName ++
          TrimPrefix p (str "/"))) ∧
    (∀ b p : GoString, HasPrefix p (str "/") = false →
      normalizeBackendName b ++ TrimPrefix (str "/" ++ p) (str "/") =
        normalizeBackendName b ++ TrimPrefix p (str "/")) ∧
    normalizeBackendName (str "logical") ++ TrimPrefix (str "app/db") (str "/") =
      str "logical/app/db" ∧
    normalizeBackendName (str "logical") ++ TrimPrefix (str "/app/db") (str "/") =
      str "logical/app/db" ∧
    (∀ U P : GoString, U ≠ [] → HasSuffix U (str "/") = false →
      HasPrefix P (str "/") = false →
      normalizeBackendName (str "/vault/logical/" ++ U) ++ TrimPrefix P (str "/") =
        str "vault/logical/" ++ U ++ str "/" ++ P) := by
  refine ⟨?_, ?_, by decide, by decide, ?_⟩
  · rcases extract_loop env flags with ⟨-, hg⟩ | ⟨unsealed, -, hg, -⟩
    · rw [hg]; exact List.nil_prefix
    · rw [hg]; exact extractLoop_keys env flags unsealed [] _
  · intro b p hp
    rw [trimPrefix_append, trimPrefix_of_not p hp]
  · intro U P hU hsuf hP
    have hlit : str "/vault/logical/" = [slash] ++ str "vault/logical/" := by decide
    rw [str_slash] at hsuf
    rw [trimPrefix_of_not P hP, normalize_eq, hasSuffix_append _ U hU, hsuf, hlit,
      List.append_assoc, trimPrefix_append]
    simp [str_slash]

/-- C3 on the example world: the paths `app/db` and `/app/db` both make
`extract` read the key `logical/app/db`. -/
theorem extract_get_key_witness :
    (gets (extract demo (demoFlags "app/db")).2).map Prod.fst = [str "logical/app/db"] ∧
    (gets (extract demo (demoFlags "/app/db")).2).map Prod.fst = [str "logical/app/db"] ∧
    ((gets (extract demo (demoFlags "/app/db")).2).map Prod.fst <+:
      (Split (demoFlags "/app/db").fOriginVaultKeysPaths space).map
        (fun p => normalizeBackendName (demoFlags "/app/db").fOriginVaultBackendName ++
          TrimPrefix p (str "/"))) :=
  ⟨by decide, by decide, (extract_get_key demo (demoFlags "/app/db")).1⟩

/-- C4: when `barrier.Get` answers with entries whose `Key` is the key asked
for and `extract` returns a map, the keys of the map are exactly the requested
paths without their leading separator, and the map sends each relative path
`r` to the bytes `barrier.Get` returned for `normalizeBackendName` of the
backend name followed by `r`; stripping any string from the front of itself
followed by `r` gives `r`. -/
theorem extract_round_trip (env : Env β σ) (flags : Flags) (m : GoMap)
    (hkey : ∀ st key ent st', env.Get st key = (.ok (some ent), st') → ent.Key = key)
    (h : (extract env flags).1 = .ok m) :
    (∀ r, (∃ v, m.get? r = some v) ↔
      r ∈ (Split flags.fOriginVaultKeysPaths space).map (fun p => TrimPrefix p (str "/"))) ∧
    (∀ r, m.get? r =
      returnedFor (normalizeBackendName flags.fOriginVaultBackendName ++ r)
        (extract env flags).2) ∧
    (∀ pre r : GoString, TrimPrefix (pre ++ r) pre = r) := by
  refine ⟨?_, ?_, trimPrefix_append⟩
  · intro r
    rcases extract_loop env flags with ⟨⟨e, he⟩, -⟩ | ⟨unsealed, hres, -, -⟩
    · rw [he] at h; cases h
    · rw [hres] at h
      rw [extractLoop_domain env flags unsealed [] _ m hkey h r]
      simp [GoMap.get?]
  · intro r
    rcases extract_loop env flags with ⟨⟨e, he⟩, -⟩ | ⟨unsealed, hres, -, hret⟩
    · rw [he] at h; cases h
    · rw [hres] at h
      rw [hret, extractLoop_map env flags unsealed [] _ m hkey h r]
      cases returnedFor (normalizeBackendName flags.fOriginVaultBackendName ++ r)
        (extractLoop env flags unsealed [] (Split flags.fOriginVaultKeysPaths space)).2 <;> rfl

/-- C4 on the example world: the paths `app/db` and `/app/web` give a map from
`app/db` and `app/web` to the stored bytes. -/
theorem extract_round_trip_witness :
    (extract demo (demoFlags "app/db /app/web")).1 =
      .ok [(str "app/web", str "web-secret"), (str "app/db", str "db-secret")] ∧
    ((∀ r, (∃ v, GoMap.get? [(str "app/web", str "web-secret"),
        (str "app/db", str "db-secret")] r = some v) ↔
      r ∈ (Split (demoFlags "app/db /app/web").fOriginVaultKeysPaths space).map
        (fun p => TrimPrefix p (str "/"))) ∧
    (∀ r, GoMap.get? [(str "app/web", str "web-secret"), (str "app/db", str "db-secret")] r =
      returnedFor (normalizeBackendName (demoFlags "app/db /app/web").fOriginVaultBackendName
        ++ r) (extract demo (demoFlags "app/db /app/web")).2) ∧
    (∀ pre r : GoString, TrimPrefix (pre ++ r) pre = r)) := by
  refine ⟨rfl, extract_round_trip demo (demoFlags "app/db /app/web") _ ?_ rfl⟩
  intro st key ent st' hget
  exact demoEnv_get_key demoStore (str "KAKB") st key ent st' hget

/-- C5: `extract` returns a map exactly when it called `barrier.Get` for every
requested path and every call returned an entry without an error; a call that
returned an error or no entry is the last `barrier.Get` of the run, all calls
before it returned an entry, and `extract` returns an error and no map; the
calls are made for the requested paths in their order, from the first on. -/
theorem extract_all_or_nothing (env : Env β σ) (flags : Flags) :
    ((∃ m, (extract env flags).1 = .ok m) ↔
      ((gets (extract env flags).2).map Prod.fst =
        (Split flags.fOriginVaultKeysPaths space).map
          (fun p => normalizeBackendName flags.fOriginVaultBackendName ++
            TrimPrefix p (str "/")) ∧
        ∀ g ∈ gets (extract env flags).2, present g.2 = true)) ∧
    (∀ pre g post, gets (extract env flags).2 = pre ++ g :: post → present g.2 = false →
      (∃ e, (extract env flags).1 = .error e) ∧ post = [] ∧
        ∀ g' ∈ pre, present g'.2 = true) ∧
    ((gets (extract env flags).2).map Prod.fst <+:
      (Split flags.fOriginVaultKeysPaths space).map
        (fun p => normalizeBackendName flags.fOriginVaultBackendName ++
          TrimPrefix p (str "/"))) := by
  refine ⟨?_, ?_, ?_⟩
  · rcases extract_loop env flags with ⟨⟨e, he⟩, hg⟩ | ⟨unsealed, hres, hg, -⟩
    · rw [he, hg]
      have hne := split_ne_nil flags.fOriginVaultKeysPaths space
      constructor
      · rintro ⟨m, hm⟩; cases hm
      · rintro ⟨hk, -⟩
        simp only [gets, List.map_nil] at hk
        exact absurd (List.map_eq_nil_iff.1 hk.symm) hne
    · rw [hres, hg, extractLoop_ok_iff]
      have hpre := extractLoop_keys env flags unsealed []
        (Split flags.fOriginVaultKeysPaths space)
      constructor
      · rintro ⟨hlen, hall⟩
        refine ⟨hpre.eq_of_length (by simp [hlen]), hall⟩
      · rintro ⟨hk, hall⟩
        refine ⟨?_, hall⟩
        have := congrArg List.length hk
        simpa using this
  · intro pre g post hg hfail
    rcases extract_loop env flags with ⟨-, hg'⟩ | ⟨unsealed, hres, hg', -⟩
    · rw [hg'] at hg
      simp at hg
    · rw [hg'] at hg
      rw [hres]
      exact extractLoop_fail_fast env flags unsealed [] _ pre g post hg hfail
  · rcases extract_loop env flags with ⟨-, hg⟩ | ⟨unsealed, -, hg, -⟩
    · rw [hg]; exact List.nil_prefix
    · rw [hg]; exact extractLoop_keys env flags unsealed [] _

/-- C5 on the example world: with `app/missing` absent, the run over `app/db`,
`app/missing` and `app/web` reads the first two keys, returns an error, and
does not read the third. -/
theorem extract_all_or_nothing_witness :
    extract demo (demoFlags "app/db app/missing app/web") =
      (.error (str "no entry found for key"),
        [Call.NewBackend none, Call.NewAESGCMBarrier none,
          Call.Combine [str "KA", str "KB"] (.ok (str "KAKB")),
          Call.Unseal (str "KAKB") none,
          Call.Get (str "logical/app/db")
            (.ok (some ⟨str "logical/app/db", str "db-secret"⟩)),
          Call.Get (str "logical/app/missing") (.ok none)]) ∧
    ((∃ e, (extract demo (demoFlags "app/db app/missing app/web")).1 = .error e) ∧
      ([] : List (GoString × Except GoError (Option Entry))) = [] ∧
      ∀ g' ∈ [(str "logical/app/db",
          (.ok (some ⟨str "logical/app/db", str "db-secret"⟩) :
            Except GoError (Option Entry)))],
        present g'.2 = true) :=
  ⟨rfl, (extract_all_or_nothing demo (demoFlags "app/db app/missing app/web")).2.1
    [(str "logical/app/db", .ok (some ⟨str "logical/app/db", str "db-secret"⟩))]
    (str "logical/app/missing", .ok none) [] rfl rfl⟩

/-- C6 fails on the code: when `barrier.Get` reports no entry, `extract` returns
the error `no entry found for key`, the same for the missing paths
`app/missing` and `app/other`, and the text holds neither path; an error of
`barrier.Get` is reported with the path. -/
theorem extract_absent_error_names_no_path :
    (extract demo (demoFlags "app/missing")).1 = .error (str "no entry found for key") ∧
    (extract demo (demoFlags "app/other")).1 = .error (str "no entry found for key") ∧
    gets (extract demo (demoFlags "app/missing")).2 = [(str "logical/app/missing", .ok none)] ∧
    ¬ (str "app/missing" <:+: str "no entry found for key") ∧
    ¬ (str "app/other" <:+: str "no entry found for key") ∧
    (extract demo (demoFlags "app/bad")).1 =
      .error (str "failed to get value for key at: app/bad: cipher: message authentication failed") := by
  refine ⟨rfl, rfl, rfl, by decide, by decide, rfl⟩

/-- C7 fails on the code: `strings.Split` never returns an empty list, so the
check `len(paths) == 0` of `extract` never fires; with the empty string for
the paths, `strings.Split` gives one path, the empty one, and `extract`
unseals the barrier, calls `barrier.Get` for the key `logical/`, and returns
the error of the missing entry and not `no paths to Vault keys specified`. -/
theorem extract_empty_paths_reads :
    (∀ s : GoString, Split s space ≠ []) ∧
    Split (str "") space = [str ""] ∧
    extract demo (demoFlags "") =
      (.error (str "no entry found for key"),
        [Call.NewBackend none, Call.NewAESGCMBarrier none,
          Call.Combine [str "KA", str "KB"] (.ok (str "KAKB")),
          Call.Unseal (str "KAKB") none,
          Call.Get (str "logical/") (.ok none)]) ∧
    (extract demo (demoFlags "")).1 ≠ .error (str "no paths to Vault keys specified") := by
  refine ⟨fun s => split_ne_nil s space, by decide, rfl, ?_⟩
  intro h
  have h2 : (extract demo (demoFlags "")).1 = .error (str "no entry found for key") := rfl
  rw [h2] at h
  injection h with h
  exact absurd h (by decide)

/-- C9: when the reconstruction of the master key fails, and when
`barrier.Unseal` returns an error, `extract` returns an error and no map and
calls `barrier.Get` not once; every `barrier.Get` of a run comes after a
`barrier.Unseal` that returned without an error. -/
theorem extract_fail_closed (env : Env β σ) (flags : Flags) :
    (∀ e, (reconstructMasterKey env flags).1 = .error e →
      (∃ e', (extract env flags).1 = .error e') ∧ gets (extract env flags).2 = []) ∧
    (∀ k err, Call.Unseal k (some err) ∈ (extract env flags).2 →
      (∃ e', (extract env flags).1 = .error e') ∧ gets (extract env flags).2 = []) ∧
    (∀ b barrier k err st', env.NewBackend = .ok b → env.NewAESGCMBarrier b = .ok barrier →
      (reconstructMasterKey env flags).1 = .ok k → env.Unseal barrier k = (some err, st') →
      extract env flags =
        (.error (str "failed to unseal etcd backend" ++ str ": " ++ err),
          [Call.NewBackend none, Call.NewAESGCMBarrier none]
            ++ (reconstructMasterKey env flags).2 ++ [Call.Unseal k (some err)])) ∧
    (∀ pre key res post, (extract env flags).2 = pre ++ Call.Get key res :: post →
      ∃ k, Call.Unseal k none ∈ pre) := by
  refine ⟨?_, ?_, ?_, ?_⟩
  · intro e he
    rcases extract_cases env flags with ⟨herr, hg, -⟩ | ⟨unsealed, k, b, barrier, -, -, hk, -, -⟩
    · exact ⟨herr, gets_eq_nil _ hg⟩
    · rw [hk] at he; cases he
  · intro k err hmem
    rcases extract_cases env flags with ⟨herr, hg, -⟩ | ⟨unsealed, k', b, barrier, -, -, -, -, h⟩
    · exact ⟨herr, gets_eq_nil _ hg⟩
    · rw [h] at hmem
      simp only [List.mem_append, List.mem_cons, List.mem_singleton, List.not_mem_nil,
        or_false] at hmem
      rcases hmem with (((hm | hm) | hm) | hm) | hm
      · cases hm
      · cases hm
      · exact absurd (reconstructMasterKey_calls env flags _ hm) (by simp [Call.isCombine])
      · cases hm
      · exact absurd (extractLoop_calls env flags _ _ _ _ hm) (by simp [Call.isGet])
  · intro b barrier k err st' hb hbar hk hu
    exact extract_unseal_error env flags b barrier st' k err hb hbar hk hu
  · intro pre key res post hsplit
    rcases extract_cases env flags with ⟨-, hg, -⟩ | ⟨unsealed, k, b, barrier, -, -, -, -, h⟩
    · have := hg (Call.Get key res) (by rw [hsplit]; simp)
      simp [Call.isGet] at this
    · rw [h, List.append_eq_append_iff] at hsplit
      rcases hsplit with ⟨a', ha, -⟩ | ⟨c', hc, hc2⟩
      · exact ⟨k, by rw [ha]; simp⟩
      · rcases c' with _ | ⟨x, ctl⟩
        · rw [List.append_nil] at hc
          exact ⟨k, by rw [← hc]; simp⟩
        · simp only [List.cons_append, List.cons.injEq] at hc2
          have := setup_calls env flags k (Call.Get key res)
            (by rw [hc, hc2.1]; simp)
          simp [Call.isGet] at this

/-- C9 on the example world: with shares that combine to a wrong key,
`barrier.Unseal` fails and `extract` reads nothing. -/
theorem extract_fail_closed_witness :
    extract demo ⟨str "app/db", str "logical", str "KA KC"⟩ =
      (.error (str "failed to unseal etcd backend: cipher: message authentication failed"),
        [Call.NewBackend none, Call.NewAESGCMBarrier none,
          Call.Combine [str "KA", str "KC"] (.ok (str "KAKC")),
          Call.Unseal (str "KAKC") (some (str "cipher: message authentication failed"))]) ∧
    ((∃ e', (extract demo ⟨str "app/db", str "logical", str "KA KC"⟩).1 = .error e') ∧
      gets (extract demo ⟨str "app/db", str "logical", str "KA KC"⟩).2 = []) :=
  ⟨rfl, (extract_fail_closed demo ⟨str "app/db", str "logical", str "KA KC"⟩).2.1
    (str "KAKC") (str "cipher: message authentication failed")
    (by
      have h : (extract demo ⟨str "app/db", str "logical", str "KA KC"⟩).2 =
        [Call.NewBackend none, Call.NewAESGCMBarrier none,
          Call.Combine [str "KA", str "KC"] (.ok (str "KAKC")),
          Call.Unseal (str "KAKC") (some (str "cipher: message authentication failed"))] := rfl
      rw [h]
      exact List.mem_cons_of_mem _ (List.mem_cons_of_mem _ (List.mem_cons_of_mem _
        (List.mem_cons_self _ _))))⟩

end

end VaultKvExtract
